import Mathlib

/-
Verification development for the core of the `sqlite-fall2017` storage engine
(CMU 15-445 style): LRU replacer, extendible hash table, B+Tree index,
tuple-level lock manager and ARIES-style log recovery.

Each C++ component is shallowly embedded as executable Lean definitions that
mirror the corresponding source functions; machine integers are modelled as
`Nat`/`Int` (none of the modelled quantities overflow their C++ types on the
inputs considered), `std::map`/`std::set` as association lists, shared-pointer
identity as an index into a pool of allocated objects, and blocking waits as an
explicit outcome oracle.  Parts of the repository that are declared but whose
definitions are not part of the sources at hand (leaf-page bodies, the
`BPlusTreePage::GetMinSize` accessor, table-page mutation) are modelled from
the specification document and are marked `Modelled from the spec:` in their
doc comments.
-/

namespace SqliteFall2017

/-! ## Association-list helpers

`std::map`/`std::unordered_map` keyed containers are modelled as association
lists with at most one live binding per key (the no-duplicate invariant is
carried separately where a proof needs it). -/

/-- Lookup in an association list, first binding wins (mirrors `map.find`). -/
def alLookup {α β : Type} [DecidableEq α] (k : α) : List (α × β) → Option β
  | [] => none
  | (k', v') :: t => if k' = k then some v' else alLookup k t

/-- Insert-or-overwrite, preserving the position of an existing binding
(mirrors `map[k] = v`). -/
def alInsert {α β : Type} [DecidableEq α] (k : α) (v : β) : List (α × β) → List (α × β)
  | [] => [(k, v)]
  | (k', v') :: t => if k' = k then (k, v) :: t else (k', v') :: alInsert k v t

/-- Erase the binding of `k`, if any (mirrors `map.erase(k)`). -/
def alErase {α β : Type} [DecidableEq α] (k : α) : List (α × β) → List (α × β)
  | [] => []
  | (k', v') :: t => if k' = k then t else (k', v') :: alErase k t

/-! ## LRU replacer — `src/buffer/lru_replacer.cpp`

The C++ class keeps a doubly linked list `lst_` (front = most recently
inserted) and a hash map `map_` from item to its list node.  `map_` always
binds exactly the items of `lst_`, so the state is modelled by the list alone
and `Size` (which returns `map_.size()`) by its length. -/

structure LRUReplacer where
  lst : List Nat
deriving DecidableEq

namespace LRUReplacer

/-- Mirrors `LRUReplacer::Insert`: if the item is present remove its old node, then
push it to the front. (`List.erase` is a no-op on an absent item, matching the
guarded `map_.find` branch.) -/
def Insert (value : Nat) (r : LRUReplacer) : LRUReplacer :=
  ⟨value :: r.lst.erase value⟩

/-- Mirrors `LRUReplacer::Victim`: on an empty list return `false` leaving everything
unchanged (the C++ out-parameter is untouched, modelled by the `none`); else
pop the back of the list, erase it from the map and return it with `true`. -/
def Victim (r : LRUReplacer) : Bool × Option Nat × LRUReplacer :=
  match r.lst.getLast? with
  | none => (false, none, r)
  | some v => (true, some v, ⟨r.lst.dropLast⟩)

/-- Mirrors `LRUReplacer::Size`, which returns `map_.size()`, which equals the list length. -/
def Size (r : LRUReplacer) : Nat :=
  r.lst.length

end LRUReplacer

/-- The replacer state reached by starting empty and performing
`Insert ops[0]; Insert ops[1]; ...` in order. -/
def lruFromHistory (ops : List Nat) : LRUReplacer :=
  ops.foldl (fun r x => LRUReplacer.Insert x r) ⟨[]⟩

/-! ## Lock manager — `src/concurrency/lock_manager.cpp`

Transactions, wait lists and the lock table mirror `lock_manager.h`.  The
per-waiter `std::promise` one-shot signal is abstracted by a `WaitOutcome`
oracle given to each call that can block: `granted` means the promise was
fulfilled before `WAIT_TIMEOUT`, `timeout` means `wait_for` expired.  A call
that times out leaves its queue entry behind, exactly as the C++ does. -/

inductive TransactionState where
  | growing | shrinking | committed | aborted
deriving DecidableEq

inductive WaitState where
  | shared | exclusive
deriving DecidableEq

structure WaitItem where
  tid : Nat
  wstate : WaitState
deriving DecidableEq

structure WaitList where
  wstate : WaitState
  granted : List Nat
  lst : List WaitItem
deriving DecidableEq

structure Txn where
  tid : Nat
  tstate : TransactionState
  sharedSet : List Nat
  exclusiveSet : List Nat
deriving DecidableEq

inductive WaitOutcome where
  | granted | timeout
deriving DecidableEq

/-- The lock table `map_ : rid → WaitList`; RIDs are modelled as `Nat`. -/
abbrev LockMap := List (Nat × WaitList)

/-- Mirrors `std::set::insert`. -/
def setInsert (x : Nat) (s : List Nat) : List Nat :=
  if x ∈ s then s else x :: s

/-- Mirrors `std::set::erase`. -/
def setErase (x : Nat) (s : List Nat) : List Nat :=
  s.filter (fun y => y ≠ x)

namespace LockManager

/-- Mirrors `LockManager::LockShared`.  The `outcome` oracle decides the
`wait_for(WAIT_TIMEOUT)` on the blocking path. -/
def LockShared (txn : Txn) (rid : Nat) (outcome : WaitOutcome) (m : LockMap) :
    Bool × Txn × LockMap :=
  if txn.tstate = .shrinking then (false, { txn with tstate := .aborted }, m)
  else
    match alLookup rid m with
    | none =>
        (true, { txn with sharedSet := setInsert rid txn.sharedSet },
         alInsert rid ⟨.shared, [txn.tid], []⟩ m)
    | some wl =>
        if wl.wstate = .exclusive then
          let m1 := alInsert rid { wl with lst := wl.lst ++ [⟨txn.tid, .shared⟩] } m
          match outcome with
          | .timeout => (false, { txn with tstate := .aborted }, m1)
          | .granted => (true, { txn with sharedSet := setInsert rid txn.sharedSet }, m1)
        else
          (true, { txn with sharedSet := setInsert rid txn.sharedSet },
           alInsert rid { wl with granted := setInsert txn.tid wl.granted } m)

/-- Mirrors `LockManager::LockExclusive`. -/
def LockExclusive (txn : Txn) (rid : Nat) (outcome : WaitOutcome) (m : LockMap) :
    Bool × Txn × LockMap :=
  if txn.tstate = .shrinking then (false, { txn with tstate := .aborted }, m)
  else
    match alLookup rid m with
    | none =>
        (true, { txn with exclusiveSet := setInsert rid txn.exclusiveSet },
         alInsert rid ⟨.exclusive, [txn.tid], []⟩ m)
    | some wl =>
        let m1 := alInsert rid { wl with lst := wl.lst ++ [⟨txn.tid, .exclusive⟩] } m
        match outcome with
        | .timeout => (false, { txn with tstate := .aborted }, m1)
        | .granted => (true, { txn with exclusiveSet := setInsert rid txn.exclusiveSet }, m1)

/-- Mirrors `LockManager::LockUpgrade`.  Note that the result of the inner
`LockExclusive(txn, rid)` call is discarded and `true` is returned
unconditionally, mirroring lines 109–110 of the source. -/
def LockUpgrade (txn : Txn) (rid : Nat) (outcome : WaitOutcome) (m : LockMap) :
    Bool × Txn × LockMap :=
  if txn.tstate = .shrinking then (false, { txn with tstate := .aborted }, m)
  else
    match alLookup rid m with
    | none => (false, txn, m)
    | some wl =>
        if txn.tid ∈ wl.granted ∧ wl.wstate = .shared then
          let m1 := alInsert rid { wl with granted := setErase txn.tid wl.granted } m
          let txn1 := { txn with sharedSet := setErase rid txn.sharedSet }
          let r := LockExclusive txn1 rid outcome m1
          (true, r.2.1, r.2.2)
        else (false, txn, m)

end LockManager

/-! ## B+Tree root adjustment — `BPlusTree::AdjustRoot`, `src/index/b_plus_tree.cpp` -/

/-- The constant `INVALID_PAGE_ID`. -/
def INVALID_PAGE_ID : Int := -1

/-- Modelled from the spec: `BPlusTreePage::GetMinSize` is declared in
`b_plus_tree_page.h` but its definition is not among the sources at hand; §3
of the specification fixes `min_size = ⌈max_size / 2⌉` for both leaf and
internal pages. -/
def GetMinSize (maxSize : Nat) : Nat :=
  (maxSize + 1) / 2

/-- The state `AdjustRoot` reads and writes: the tree's `root_page_id_` and
the parent-page-id field of the old root's sole child (relevant only in the
internal-of-size-1 case). -/
structure AdjustRootState where
  rootPageId : Int
  childParentId : Int
deriving DecidableEq

/-- Mirrors `BPlusTree::AdjustRoot` (lines 402–427).  Arguments `isLeaf`, `size`,
`maxSize` describe the old root page, `valueAt0` is `parent->ValueAt(0)` for
the internal case.  Returns the C++ return value together with the updated
state. -/
def AdjustRoot (isLeaf : Bool) (size maxSize : Nat) (valueAt0 : Int)
    (s : AdjustRootState) : Bool × AdjustRootState :=
  if isLeaf then
    if size < GetMinSize maxSize then (true, { s with rootPageId := INVALID_PAGE_ID })
    else (false, s)
  else
    if size = 1 then (true, { rootPageId := valueAt0, childParentId := INVALID_PAGE_ID })
    else (false, s)

/-! ## Log recovery Redo — `LogRecovery::Redo`, `src/logging/log_recovery.cpp`

One buffer-sized chunk of the Redo scan is modelled.  The byte buffer is
abstracted as the list of complete log records it contains (a record is
deserialisable exactly when it lies wholly within the remaining `size`
budget, mirroring `DeserializeLogRecord`); the trailing partial record, if
any, is the case of an exhausted `recs` list with positive `size`.  Table
pages are modelled by their LSN (`pages`); applying a DML record appends its
LSN to `applied` (the table-page mutation itself lives in `table_page.cpp`,
outside these sources; modelled from the spec: during recovery the table-page
operations are invoked with a null log manager and do not advance the page
LSN). -/

inductive LogRecordType where
  | BEGIN | COMMIT | ABORT | INSERT | MARKDELETE | APPLYDELETE
  | ROLLBACKDELETE | UPDATE | NEWPAGE
deriving DecidableEq

structure LogRecord where
  size : Int
  lsn : Int
  txnId : Int
  prevLsn : Int
  rtype : LogRecordType
  pageId : Int
deriving DecidableEq

/-- The record types guarded by the `page->GetLSN() >= record.GetLSN()` check
in `Redo` (NEWPAGE re-initialises unconditionally). -/
def hasLSNCheck : LogRecordType → Bool
  | .UPDATE | .INSERT | .MARKDELETE | .ROLLBACKDELETE | .APPLYDELETE => true
  | _ => false

/-- The record types that touch a table page at all. -/
def isPageOp : LogRecordType → Bool
  | .BEGIN | .COMMIT | .ABORT => false
  | _ => true

/-- The `active_txn_` maintenance at the top of the Redo loop body
(lines 69–75). -/
def updateActive (a : List (Int × Int)) (r : LogRecord) : List (Int × Int) :=
  match r.rtype with
  | .COMMIT => alErase r.txnId a
  | .ABORT => alErase r.txnId a
  | _ => alInsert r.txnId r.lsn a

/-- Page LSN as seen through `FetchPage(...)->GetLSN()`; a page not yet
tracked reads `INVALID_LSN = -1`. -/
def pageLSN (pages : List (Int × Int)) (pid : Int) : Int :=
  (alLookup pid pages).getD (-1)

/-- State of the inner `while (size > 0)` loop of `Redo`. -/
structure RedoState where
  recs : List LogRecord
  size : Int
  activeTxn : List (Int × Int)
  lsnMapping : List (Int × Int)
  off : Int
  pages : List (Int × Int)
  applied : List Int
deriving DecidableEq

/-- One chunk of `LogRecovery::Redo` (the inner loop over `log_buffer_`,
lines 61–135), with an explicit iteration budget; `none` means the budget was
exhausted without the loop finishing.  The `continue` statements of the
source (taken when the LSN check fails) branch back to the loop head without
advancing `data`/`size`, which is mirrored by recursing on an unchanged
`recs`/`size`. -/
def redoChunk : Nat → RedoState → Option RedoState
  | 0, _ => none
  | fuel + 1, st =>
    if st.size ≤ 0 then some st
    else
      match st.recs with
      | [] => some st
      | r :: rest =>
          if r.size > st.size ∨ r.size ≤ 0 then some st
          else
            let a1 := updateActive st.activeTxn r
            if hasLSNCheck r.rtype = true ∧ pageLSN st.pages r.pageId ≥ r.lsn then
              redoChunk fuel { st with activeTxn := a1 }
            else
              redoChunk fuel
                { st with
                  recs := rest
                  size := st.size - r.size
                  activeTxn := a1
                  lsnMapping := alInsert r.lsn st.off st.lsnMapping
                  off := st.off + r.size
                  applied := if isPageOp r.rtype then st.applied ++ [r.lsn] else st.applied }

/-- A one-record log chunk whose INSERT record targets a page whose on-page
LSN (5) is already at least the record's LSN (1): the Redo LSN check fails,
the source `continue`s without advancing. -/
def c1StuckState : RedoState :=
  { recs := [{ size := 20, lsn := 1, txnId := 1, prevLsn := -1, rtype := .INSERT, pageId := 7 }]
    size := 512
    activeTxn := []
    lsnMapping := []
    off := 0
    pages := [(7, 5)]
    applied := [] }

/-! ## Internal page lookup — `BPlusTreeInternalPage::Lookup`,
`src/page/b_plus_tree_internal_page.cpp`

An internal page is its entry array `array : List (Int × α)`: `array[0].first`
is the unused sentinel, `array[i].first` for `i ∈ [1, size)` are separators,
`array[i].second` the child values (page ids, or directly the child nodes in
the functional tree below).  `GenericComparator` returns one of −1/0/1. -/

/-- The key comparator (−1 / 0 / 1, as in `GenericComparator`). -/
def cmpKey (a b : Int) : Int :=
  if a < b then -1 else if b < a then 1 else 0

/-- The binary-search loop of `Lookup` (lines 84–91), with the loop variant
`e - s` made explicit as a structural budget; `lookupGo (e - s) s e` runs the
loop from `start = s`, `end = e` to completion. -/
def lookupGo (keys : List Int) (key : Int) : Nat → Nat → Nat → Nat
  | 0, s, _ => s
  | fuel + 1, s, e =>
    if s < e then
      if cmpKey (keys.getD (s + (e - s) / 2) 0) key = -1 then
        lookupGo keys key fuel (s + (e - s) / 2 + 1) e
      else lookupGo keys key fuel s (s + (e - s) / 2)
    else s

/-- The index `start` upon exit of the `Lookup` loop, starting from
`start = 1`, `end = size`. -/
def lookupIdx (keys : List Int) (key : Int) (size : Nat) : Nat :=
  lookupGo keys key (size - 1) 1 size

/-- Mirrors `BPlusTreeInternalPage::Lookup`: binary-search the separators and return
`array[start - 1].second`. -/
def ipLookup (arr : List (Int × Int)) (key : Int) : Int :=
  (arr.getD (lookupIdx (arr.map Prod.fst) key arr.length - 1) (0, 0)).2

/-- The linear search for the least index in `[s, e)` satisfying `P` (`e` if
none); used only to transcribe the claimed behaviour of `Lookup`. -/
def leastGo (P : Nat → Bool) : Nat → Nat → Nat
  | 0, s => s
  | fuel + 1, s => if P s then s else leastGo P fuel (s + 1)

/-- The child-lookup behaviour asserted by the specification (§4.4.1): follow
`array[i-1].second` for the smallest `i ∈ [1..size)` with
`key < array[i].first`, `i = size` when no such index exists. -/
def ipLookupClaimed (arr : List (Int × Int)) (key : Int) : Int :=
  (arr.getD
    (leastGo (fun i => decide (key < (arr.map Prod.fst).getD i 0)) (arr.length - 1) 1 - 1)
    (0, 0)).2

/-! ## B+Tree — `src/index/b_plus_tree.cpp`

The page graph (children addressed by page id through the buffer pool) is
embedded as a functional tree: an internal node holds its entry array with
the child node in place of the child page id, so parent pointers are implicit
in the tree structure.  `Ml`/`Mi` are the leaf/internal `GetMaxSize()` page
constants.  Recursion is by an explicit structural budget `fuel`; the
wrappers pass `sizeOf t`, which bounds the tree height. -/

inductive BTree where
  | leaf : List (Int × Int) → BTree
  | node : List (Int × BTree) → BTree

mutual

/-- Height of a functional B+Tree (leaves have height 0); it bounds the
recursion depth of every descent. -/
def btHeight : BTree → Nat
  | .leaf _ => 0
  | .node cs => btChildrenHeight cs + 1

/-- Maximum height over an internal node's children. -/
def btChildrenHeight : List (Int × BTree) → Nat
  | [] => 0
  | c :: t => max (btHeight c.2) (btChildrenHeight t)

end

/-- Modelled from the spec: `BPlusTreeLeafPage::Lookup` (binary search over
the sorted leaf entries, `b_plus_tree_leaf_page.cpp` is not among the sources
at hand), written as the equivalent ordered scan. -/
def leafLookup : List (Int × Int) → Int → Option Int
  | [], _ => none
  | (k', v') :: t, k =>
      if k < k' then none else if k = k' then some v' else leafLookup t k

/-- Modelled from the spec: `BPlusTreeLeafPage::Insert` inserts in sorted
order and is a no-op when the key is already present (unique keys). -/
def leafInsert (k v : Int) : List (Int × Int) → List (Int × Int)
  | [] => [(k, v)]
  | (k', v') :: t =>
      if k < k' then (k, v) :: (k', v') :: t
      else if k = k' then (k', v') :: t
      else (k', v') :: leafInsert k v t

/-- Mirrors `BPlusTree::GetValue`'s descent (`FindLeafPage` with `Lookup` at each
internal page, then the leaf lookup), on the functional tree. -/
def getValueF (k : Int) : Nat → BTree → Option Int
  | _, .leaf es => leafLookup es k
  | 0, .node _ => none
  | fuel + 1, .node cs =>
      let i := lookupIdx (cs.map Prod.fst) k cs.length
      if h : i - 1 < cs.length then getValueF k fuel (cs.get ⟨i - 1, h⟩).2
      else none

/-- Mirrors `BPlusTree::GetValue`. -/
def getValue (t : BTree) (k : Int) : Option Int :=
  getValueF k (btHeight t) t

/-- One level of `InsertIntoLeaf` / `InsertIntoParent`
(`src/index/b_plus_tree.cpp` lines 109–132 and 165–201): returns the updated
node, the optional `(separator, new right sibling)` handed to
`InsertIntoParent` when the node overflowed and split, and the boolean
`osize != new_size` result.

For a leaf that overflows, `Split`/`MoveHalfTo` moves the second half
(modelled from the spec; the leaf `MoveHalfTo` body is not among the sources)
and the separator passed up is `left_leaf->KeyAt(left_leaf->GetSize() - 1)` —
the left page's **last** key (line 122).  For an internal overflow the split
point is `GetMaxSize() / 2` and the separator is `new_leaf->KeyAt(0)`
(lines 146, 197), which also remains in place as the right page's sentinel. -/
def insertNodeF (Ml Mi : Nat) (k v : Int) : Nat → BTree → BTree × Option (Int × BTree) × Bool
  | _, .leaf es =>
      let es2 := leafInsert k v es
      if es2.length = es.length then (.leaf es, none, false)
      else if es2.length > Ml then
        let st := es2.length / 2
        (.leaf (es2.take st),
         some (((es2.take st).getLastD ((0 : Int), (0 : Int))).1, .leaf (es2.drop st)),
         true)
      else (.leaf es2, none, true)
  | 0, .node cs => (.node cs, none, false)
  | fuel + 1, .node cs =>
      let i := lookupIdx (cs.map Prod.fst) k cs.length
      if h : i - 1 < cs.length then
        let res := insertNodeF Ml Mi k v fuel (cs.get ⟨i - 1, h⟩).2
        let cs1 := cs.set (i - 1) ((cs.get ⟨i - 1, h⟩).1, res.1)
        match res.2.1 with
        | none => (.node cs1, none, res.2.2)
        | some (sep, rn) =>
            let cs2 := cs1.insertIdx i (sep, rn)
            if cs2.length > Mi then
              let st := Mi / 2
              (.node (cs2.take st),
               some (((cs2.drop st).headD ((0 : Int), .leaf [])).1, .node (cs2.drop st)),
               res.2.2)
            else (.node cs2, none, res.2.2)
      else (.node cs, none, false)

/-- Mirrors `BPlusTree::Insert` on the functional tree (`none` = empty tree,
`root_page_id_ == INVALID_PAGE_ID`): `StartNewTree` then `InsertIntoLeaf` on
the empty path (returning `true`, line 70), else `InsertIntoLeaf` with root
split handled by `InsertIntoParent`'s `PopulateNewRoot` (sentinel key 0). -/
def treeInsert (Ml Mi : Nat) (t : Option BTree) (k v : Int) : Option BTree × Bool :=
  match t with
  | none => (some (.leaf (leafInsert k v [])), true)
  | some rt =>
      let res := insertNodeF Ml Mi k v (btHeight rt) rt
      match res.2.1 with
      | none => (some res.1, res.2.2)
      | some (sep, rn) => (some (.node [((0 : Int), res.1), (sep, rn)]), res.2.2)

/-! ## Extendible hash table — `src/hash/extendible_hash.cpp`

`shared_ptr<Bucket>` identity is modelled by an index into a `pool` of all
buckets ever allocated; the directory `dir` holds pool indices.  Keys and
values are `Nat`; the `std::hash` content hash is a function parameter. -/

structure EHBucket where
  depth : Nat
  map : List (Nat × Nat)
deriving DecidableEq

structure EHState where
  pool : List EHBucket
  dir : List Nat
  global : Nat
  sizeLimit : Nat
deriving DecidableEq

/-- Mirrors `ExtendibleHash::GetBucketIndex`: `hash & ((1 << global_depth) - 1)`. -/
def ehSlot (h : Nat → Nat) (g : Nat) (k : Nat) : Nat :=
  h k &&& (1 <<< g - 1)

/-- The pool index of `GetBucket(key)`'s bucket. -/
def ehBucketIdx (h : Nat → Nat) (s : EHState) (k : Nat) : Nat :=
  s.dir.getD (ehSlot h s.global k) 0

/-- The bucket `GetBucket(key)` itself. -/
def ehGetBucket (h : Nat → Nat) (s : EHState) (k : Nat) : EHBucket :=
  s.pool.getD (ehBucketIdx h s k) ⟨0, []⟩

/-- Mirrors `ExtendibleHash::Find` (lines 55–64). -/
def ehFind (h : Nat → Nat) (s : EHState) (k : Nat) : Option Nat :=
  alLookup k (ehGetBucket h s k).map

/-- Mirrors `ExtendibleHash::Remove` (lines 70–79). -/
def ehRemove (h : Nat → Nat) (s : EHState) (k : Nat) : Bool × EHState :=
  let bidx := ehBucketIdx h s k
  let b := s.pool.getD bidx ⟨0, []⟩
  match alLookup k b.map with
  | none => (false, s)
  | some _ => (true, { s with pool := s.pool.set bidx ⟨b.depth, alErase k b.map⟩ })

/-- Step (1) of the `Insert` split loop (lines 91–97): when the target
bucket's local depth has reached the global depth, append a copy of the
directory to itself (slot `i + 2^global` aliases slot `i`) and increment the
global depth; otherwise leave the state unchanged. -/
def ehDouble (s : EHState) (b : EHBucket) : EHState :=
  if b.depth = s.global then { s with dir := s.dir ++ s.dir, global := s.global + 1 }
  else s

/-- Steps (2)–(3) of the `Insert` split loop (lines 98–116): allocate two
fresh buckets at `local_depth + 1` holding the partition of the old bucket's
entries by bit `mask = 1 << local_depth` of the key hash, then retarget every
directory slot that aliases the old bucket (`shared_ptr` identity, i.e. pool
index equality) according to bit `mask` of the slot index.  `left` is
appended at pool index `s1.pool.length`, `right` right after it. -/
def ehSplitStep (h : Nat → Nat) (bidx : Nat) (b : EHBucket) (s1 : EHState) : EHState :=
  { pool := s1.pool ++
      [⟨b.depth + 1, b.map.filter (fun p => 1 <<< b.depth &&& h p.1 = 0)⟩,
       ⟨b.depth + 1, b.map.filter (fun p => ¬ 1 <<< b.depth &&& h p.1 = 0)⟩]
    dir := (List.range s1.dir.length).map fun i =>
      if s1.dir.getD i 0 = bidx then
        if ¬ 1 <<< b.depth &&& i = 0 then s1.pool.length + 1 else s1.pool.length
      else s1.dir.getD i 0
    global := s1.global
    sizeLimit := s1.sizeLimit }

/-- Mirrors `ExtendibleHash::Insert` (lines 86–120): the `while` split loop with an
explicit iteration budget (`none` = budget exhausted before the loop exited).
While the target bucket is full, double the directory if needed and split the
bucket; when it is not full, insert-or-overwrite `(k, v)` into it. -/
def ehInsertLoop (h : Nat → Nat) (k v : Nat) : Nat → EHState → Option EHState
  | 0, _ => none
  | fuel + 1, s =>
      let bidx := ehBucketIdx h s k
      let b := s.pool.getD bidx ⟨0, []⟩
      if b.map.length = s.sizeLimit then
        ehInsertLoop h k v fuel (ehSplitStep h bidx b (ehDouble s b))
      else
        some { s with pool := s.pool.set bidx ⟨b.depth, alInsert k v b.map⟩ }

/-- The freshly constructed table (`ExtendibleHash(size)`): one empty bucket
of local depth 0, directory of size `2^0 = 1`. -/
def ehInit (sizeLimit : Nat) : EHState :=
  { pool := [⟨0, []⟩], dir := [0], global := 0, sizeLimit := sizeLimit }

/-- The state invariant maintained by the table: directory length is
`2^global_depth`, directory entries are allocated buckets, bucket local
depths never exceed the global depth, and each bucket's key multiset is
duplicate-free (`std::map` semantics). -/
def EHInv (s : EHState) : Prop :=
  s.dir.length = 2 ^ s.global ∧
  (∀ x ∈ s.dir, x < s.pool.length) ∧
  (∀ x ∈ s.dir, (s.pool.getD x ⟨0, []⟩).depth ≤ s.global) ∧
  (∀ b ∈ s.pool, (b.map.map Prod.fst).Nodup)

instance (s : EHState) : Decidable (EHInv s) := by
  unfold EHInv; infer_instance

/-! ## Concrete states used by the theorems below -/

/-- The state of `c1StuckState` after its first loop iteration (only
`active_txn_` has been written; `data`/`size` were not advanced because the
record was dispatched through a `continue`). -/
def c1StuckState2 : RedoState :=
  { c1StuckState with activeTxn := [(1, 1)] }

/-- Transaction 1 is the sole shared holder of rid 0. -/
def c5Txn : Txn := ⟨1, .growing, [0], []⟩

/-- The lock table in which transaction 1 holds rid 0 in SHARED mode. -/
def c5Map : LockMap := [(0, ⟨.shared, [1], []⟩)]

/-- A wait list in SHARED mode, granted to transaction 1, with transaction 2
queued for EXCLUSIVE access (as left behind e.g. by a timed-out
`LockExclusive`). -/
def c6Map : LockMap := [(0, ⟨.shared, [1], [⟨2, .exclusive⟩]⟩)]

/-- The two-level tree `[(1,10),(3,30)] | 3 | [(4,40),(5,50)]` (separator 3 =
last key of the left leaf, following the implementation's convention). -/
def c7Tree : BTree :=
  .node [(0, .leaf [(1, 10), (3, 30)]), (3, .leaf [(4, 40), (5, 50)])]

/-- The table with `size_limit = 2` after inserting `0 ↦ 10` and `2 ↦ 12`
(one full bucket of local depth 0). -/
def c8Before : EHState := ⟨[⟨0, [(0, 10), (2, 12)]⟩], [0], 0, 2⟩

/-- The table `c8Before` after `Insert(1, 11)`: the full bucket forces a directory
doubling and a split before the insert lands in the new right bucket. -/
def c8After : EHState :=
  ⟨[⟨0, [(0, 10), (2, 12)]⟩, ⟨1, [(0, 10), (2, 12)]⟩, ⟨1, [(1, 11)]⟩], [1, 2], 1, 2⟩

/-- A one-bucket table holding `3 ↦ 30` and `5 ↦ 50`. -/
def c9Table : EHState := ⟨[⟨0, [(3, 30), (5, 50)]⟩], [0], 0, 4⟩

end SqliteFall2017

/-! # Theorems -/

namespace SqliteFall2017

/-! ## C1 — Redo scan on an already-redone DML record -/

theorem redoChunk_c1StuckState2 : ∀ fuel : Nat, redoChunk fuel c1StuckState2 = none := by
  intro fuel
  induction fuel with
  | zero => rfl
  | succ n ih => exact (rfl : redoChunk (n + 1) c1StuckState2 = redoChunk n c1StuckState2).trans ih

/-- C1: the claim asserts the Redo pass terminates on every finite log,
skipping a DML record whose page LSN is at least the record LSN and moving on
to the next record.  On the one-record log of `c1StuckState` (an INSERT with
LSN 1 against a page whose LSN is 5) the `continue` on the failed LSN check
branches back to the loop head without advancing `data`/`size`, so the scan
re-reads the same record forever: no iteration budget whatsoever completes
the chunk. -/
theorem c1_redo_lsn_skip_never_terminates : ∀ fuel : Nat, redoChunk fuel c1StuckState = none := by
  intro fuel
  cases fuel with
  | zero => rfl
  | succ n =>
      exact (rfl : redoChunk (n + 1) c1StuckState = redoChunk n c1StuckState2).trans
        (redoChunk_c1StuckState2 n)

/-! ## C4 — `AdjustRoot` on an underfull but non-empty root leaf -/

/-- C4: the claim requires the root-leaf branch of `AdjustRoot` to empty the
tree and return `true` only when the leaf has size 0.  The source tests
`GetSize() < GetMinSize()` instead: a root leaf of max size 4 holding one
remaining entry (size 1 < min size 2) makes `AdjustRoot` set
`root_page_id_ = INVALID_PAGE_ID` and return `true`, discarding the live
entry, where the claim requires `false` and an unchanged tree. -/
theorem c4_adjustRoot_discards_nonempty_root_leaf :
    AdjustRoot true 1 4 0 ⟨3, -1⟩ = (true, ⟨INVALID_PAGE_ID, -1⟩) ∧ (1 : Nat) ≠ 0 := by
  constructor
  · decide
  · decide

/-! ## C5 — `LockUpgrade` returning `true` on an aborted transaction -/

/-- C5: the claim asserts that a lock call that sets the transaction to
ABORTED returns `false`.  When the sole shared holder upgrades, `LockUpgrade`
removes it from the granted set and calls `LockExclusive`, which finds the
wait-list entry still present, enqueues, and — since no other transaction
exists to signal the promise — times out, aborting the transaction and
returning `false`; `LockUpgrade` discards that result and returns `true`
while the transaction is ABORTED. -/
theorem c5_lockUpgrade_true_despite_abort :
    (LockManager.LockUpgrade c5Txn 0 .timeout c5Map).1 = true ∧
    (LockManager.LockUpgrade c5Txn 0 .timeout c5Map).2.1.tstate = .aborted := by
  decide

/-! ## C6 — `LockShared` against a SHARED entry with a queued exclusive waiter -/

/-- C6 counterexample: the claim asserts that with an exclusive waiter queued
ahead, a new `LockShared` is enqueued behind it and waits.  The source only
tests `state_ == EXCLUSIVE`: on `c6Map` transaction 3 is granted immediately
(`true`, added to the granted set) and the wait queue is left untouched — it
is not enqueued. -/
theorem c6_counterexample :
    (LockManager.LockShared ⟨3, .growing, [], []⟩ 0 .timeout c6Map).1 = true ∧
    (LockManager.LockShared ⟨3, .growing, [], []⟩ 0 .timeout c6Map).2.2 =
      [(0, ⟨.shared, [3, 1], [⟨2, .exclusive⟩]⟩)] := by
  decide

/-- C6 (amended): whenever the wait-list entry for `rid` is in SHARED mode
and the transaction is GROWING, `LockShared` adds the transaction to the
granted set and returns `true` immediately, regardless of any queued waiters
(whose queue is left unchanged); only an EXCLUSIVE-mode entry causes the
request to be enqueued and wait. -/
theorem c6_lockShared_shared_entry_grants_immediately (txn : Txn) (rid : Nat)
    (oc : WaitOutcome) (m : LockMap) (wl : WaitList)
    (hg : txn.tstate = .growing) (hf : alLookup rid m = some wl)
    (hs : wl.wstate = .shared) :
    LockManager.LockShared txn rid oc m =
      (true, { txn with sharedSet := setInsert rid txn.sharedSet },
       alInsert rid { wl with granted := setInsert txn.tid wl.granted } m) := by
  simp [LockManager.LockShared, hg, hf, hs]

theorem c6_amended_witness :
    LockManager.LockShared ⟨7, .growing, [], []⟩ 5 .timeout [(5, ⟨.shared, [1], []⟩)] =
      (true, ⟨7, .growing, [5], []⟩, [(5, ⟨.shared, [7, 1], []⟩)]) :=
  (c6_lockShared_shared_entry_grants_immediately ⟨7, .growing, [], []⟩ 5 .timeout
    [(5, ⟨.shared, [1], []⟩)] ⟨.shared, [1], []⟩ rfl rfl rfl).trans (by decide)

end SqliteFall2017

namespace SqliteFall2017

/-! ## C10 — LRU replacer `Victim` -/

theorem lru_insert_lst (x : Nat) (r : LRUReplacer) :
    (LRUReplacer.Insert x r).lst = x :: r.lst.erase x := rfl

theorem lruFromHistory_append (ops : List Nat) (x : Nat) :
    lruFromHistory (ops ++ [x]) = LRUReplacer.Insert x (lruFromHistory ops) := by
  simp [lruFromHistory, List.foldl_append]

theorem lruFromHistory_nodup (ops : List Nat) : (lruFromHistory ops).lst.Nodup := by
  induction ops using List.reverseRecOn with
  | nil => simp [lruFromHistory]
  | append_singleton os x ih =>
      rw [lruFromHistory_append, lru_insert_lst]
      refine List.Nodup.cons ?_ (ih.erase x)
      intro hmem
      exact absurd ((ih.mem_erase_iff).1 hmem).1 (by simp)

/-- Each item of the replacer list sits at the position of its **last**
`Insert` in the history, and every item in front of it (more recently
inserted) was re-inserted after that point: `ops` splits as
`pre ++ item :: suf` with the item absent from `suf` and all items at
smaller list indices present in `suf`. -/
theorem lruFromHistory_lastOcc (ops : List Nat) :
    ∀ idx (h : idx < (lruFromHistory ops).lst.length),
      ∃ pre suf, ops = pre ++ (lruFromHistory ops).lst[idx] :: suf ∧
        (lruFromHistory ops).lst[idx] ∉ suf ∧
        ∀ z ∈ (lruFromHistory ops).lst.take idx, z ∈ suf := by
  induction ops using List.reverseRecOn with
  | nil => intro idx h; simp [lruFromHistory] at h
  | append_singleton os x ih =>
      intro idx h
      have hrw : (lruFromHistory (os ++ [x])).lst = x :: (lruFromHistory os).lst.erase x := by
        rw [lruFromHistory_append, lru_insert_lst]
      set s := (lruFromHistory os).lst with hs
      cases idx with
      | zero =>
          have h0 : (lruFromHistory (os ++ [x])).lst[0] = x := by simp [hrw]
          rw [h0]
          exact ⟨os, [], rfl, by simp, by simp⟩
      | succ i =>
          have hi : i < (s.erase x).length := by
            have h2 := h; rw [hrw] at h2; simpa using h2
          have hel : (lruFromHistory (os ++ [x])).lst[i + 1] = (s.erase x)[i] := by
            simp [hrw]
          have hmem : (s.erase x)[i] ∈ s.erase x := List.getElem_mem hi
          have hnd : s.Nodup := lruFromHistory_nodup os
          have hex : (s.erase x)[i] ≠ x ∧ (s.erase x)[i] ∈ s := (hnd.mem_erase_iff).1 hmem
          have key : ∃ (i' : Nat) (_ : i' < s.length), (s.erase x)[i] = s[i'] ∧
              ∀ z ∈ (s.erase x).take i, z ∈ s.take i' := by
            by_cases hx : x ∈ s
            · obtain ⟨p, q, hxp, hpq, herase⟩ := List.exists_erase_eq hx
              by_cases hip : i < p.length
              · refine ⟨i, by rw [hpq]; simp; omega, ?_, ?_⟩
                · simp only [herase]
                  simp only [hpq]
                  rw [List.getElem_append_left hip, List.getElem_append_left hip]
                · intro z hz
                  have h1 : (s.erase x).take i = p.take i := by
                    rw [herase]; exact List.take_append_of_le_length (by omega)
                  have h2 : s.take i = p.take i := by
                    rw [hpq]; exact List.take_append_of_le_length (by omega)
                  rw [h1] at hz; rw [h2]; exact hz
              · have hple : p.length ≤ i := by omega
                have hiq : i - p.length < q.length := by
                  rw [herase] at hi; simp at hi; omega
                refine ⟨i + 1, by rw [hpq]; simp; omega, ?_, ?_⟩
                · simp only [herase]
                  simp only [hpq]
                  rw [List.getElem_append_right hple, List.getElem_append_right (by omega)]
                  have h2 : i + 1 - p.length = (i - p.length) + 1 := by omega
                  simp only [h2, List.getElem_cons_succ]
                · intro z hz
                  rw [herase, List.take_append_eq_append_take,
                    List.take_of_length_le hple] at hz
                  rw [hpq, List.take_append_eq_append_take, List.take_of_length_le (by omega)]
                  have hstep : i + 1 - p.length = (i - p.length) + 1 := by omega
                  rw [hstep, List.take_succ_cons]
                  rcases List.mem_append.1 hz with hzp | hzq
                  · exact List.mem_append.2 (Or.inl hzp)
                  · exact List.mem_append.2 (Or.inr (List.mem_cons_of_mem _ hzq))
            · refine ⟨i, ?_, ?_, ?_⟩
              · rw [List.erase_of_not_mem hx] at hi; exact hi
              · simp only [List.erase_of_not_mem hx]
              · intro z hz; rw [List.erase_of_not_mem hx] at hz; exact hz
          obtain ⟨i', hi', heq, htakeinc⟩ := key
          obtain ⟨pre', suf', hsplit, hnot, htake⟩ := ih i' hi'
          refine ⟨pre', suf' ++ [x], ?_, ?_, ?_⟩
          · rw [hel, heq, hsplit]; simp
          · rw [hel, heq]
            rw [heq] at hex
            simp only [List.mem_append, List.mem_singleton]
            rintro (hc | hc)
            · exact hnot hc
            · exact hex.1 hc
          · intro z hz
            rw [hrw, List.take_succ_cons] at hz
            rcases List.mem_cons.1 hz with hzx | hze
            · subst hzx; simp
            · have := htake z (htakeinc z hze)
              simp [this]

/-- C10: `Victim` on the empty replacer returns `false` with the state (and
out-parameter) unchanged; on any non-empty replacer built by a history of
`Insert` calls it returns `true`, outputs the item whose most recent
`Insert` is oldest (its last insertion splits the history as
`pre ++ y :: suf` with `y ∉ suf` while every other current item occurs in
`suf`), removes exactly that item, and `Size` decreases by one. -/
theorem c10_lru_victim_spec (ops : List Nat) :
    LRUReplacer.Victim ⟨[]⟩ = (false, none, ⟨[]⟩) ∧
    ((lruFromHistory ops).lst ≠ [] →
      ∃ y pre suf,
        LRUReplacer.Victim (lruFromHistory ops) =
          (true, some y, ⟨(lruFromHistory ops).lst.dropLast⟩) ∧
        LRUReplacer.Size ⟨(lruFromHistory ops).lst.dropLast⟩ + 1 =
          LRUReplacer.Size (lruFromHistory ops) ∧
        y ∉ (lruFromHistory ops).lst.dropLast ∧
        ops = pre ++ y :: suf ∧ y ∉ suf ∧
        ∀ z ∈ (lruFromHistory ops).lst, z ≠ y → z ∈ suf) := by
  constructor
  · rfl
  · intro hne
    have hlen : 0 < (lruFromHistory ops).lst.length := List.length_pos.2 hne
    obtain ⟨pre, suf, hsplit, hnot, htake⟩ :=
      lruFromHistory_lastOcc ops ((lruFromHistory ops).lst.length - 1) (by omega)
    have hy : (lruFromHistory ops).lst.getLast hne =
        (lruFromHistory ops).lst[(lruFromHistory ops).lst.length - 1] :=
      List.getLast_eq_getElem _ hne
    have htakedrop : (lruFromHistory ops).lst.take ((lruFromHistory ops).lst.length - 1) =
        (lruFromHistory ops).lst.dropLast := (List.dropLast_eq_take _).symm
    have hd : (lruFromHistory ops).lst.dropLast ++ [(lruFromHistory ops).lst.getLast hne] =
        (lruFromHistory ops).lst := List.dropLast_append_getLast hne
    refine ⟨(lruFromHistory ops).lst[(lruFromHistory ops).lst.length - 1], pre, suf,
      ?_, ?_, ?_, hsplit, hnot, ?_⟩
    · unfold LRUReplacer.Victim
      rw [List.getLast?_eq_getLast _ hne, hy]
    · show (lruFromHistory ops).lst.dropLast.length + 1 = (lruFromHistory ops).lst.length
      rw [List.length_dropLast]; omega
    · have hnd : ((lruFromHistory ops).lst.dropLast ++
          [(lruFromHistory ops).lst.getLast hne]).Nodup := by
        rw [hd]; exact lruFromHistory_nodup ops
      have hdisj := (List.nodup_append.1 hnd).2.2
      intro hmem
      exact hdisj hmem (by rw [← hy]; simp)
    · intro z hz hzy
      have hz2 : z ∈ (lruFromHistory ops).lst.dropLast ++
          [(lruFromHistory ops).lst.getLast hne] := by rw [hd]; exact hz
      rcases List.mem_append.1 hz2 with hzd | hzl
      · exact htake z (by rw [htakedrop]; exact hzd)
      · exact absurd (by simpa [hy] using hzl) hzy

theorem c10_witness :
    ∃ y pre suf,
      LRUReplacer.Victim (lruFromHistory [1, 2, 3, 2]) =
        (true, some y, ⟨(lruFromHistory [1, 2, 3, 2]).lst.dropLast⟩) ∧
      LRUReplacer.Size ⟨(lruFromHistory [1, 2, 3, 2]).lst.dropLast⟩ + 1 =
        LRUReplacer.Size (lruFromHistory [1, 2, 3, 2]) ∧
      y ∉ (lruFromHistory [1, 2, 3, 2]).lst.dropLast ∧
      [1, 2, 3, 2] = pre ++ y :: suf ∧ y ∉ suf ∧
      ∀ z ∈ (lruFromHistory [1, 2, 3, 2]).lst, z ≠ y → z ∈ suf :=
  (c10_lru_victim_spec [1, 2, 3, 2]).2 (by decide)

end SqliteFall2017

namespace SqliteFall2017

/-! ## C3 — internal page child lookup -/

theorem cmpKey_eq_neg_one (a b : Int) : cmpKey a b = -1 ↔ a < b := by
  unfold cmpKey
  by_cases h1 : a < b
  · simp [h1]
  · by_cases h2 : b < a <;> simp [h1, h2]

/-- Characterisation of the `Lookup` binary-search loop: provided the tested
predicate is monotone on `[lo, hi)` (downward closure of `array[·] < key`),
the loop run from `[s, e) ⊆ [lo, hi)` with budget at least `e - s` lands on
the least index at which `array[·] < key` fails (or on `e`). -/
theorem lookupGo_char (keys : List Int) (key : Int) (lo hi : Nat)
    (hmono : ∀ i j, lo ≤ i → i ≤ j → j < hi →
      cmpKey (keys.getD j 0) key = -1 → cmpKey (keys.getD i 0) key = -1) :
    ∀ fuel s e, e - s ≤ fuel → lo ≤ s → s ≤ e → e ≤ hi →
      s ≤ lookupGo keys key fuel s e ∧ lookupGo keys key fuel s e ≤ e ∧
      (∀ i, s ≤ i → i < lookupGo keys key fuel s e → cmpKey (keys.getD i 0) key = -1) ∧
      (lookupGo keys key fuel s e < e →
        ¬ cmpKey (keys.getD (lookupGo keys key fuel s e) 0) key = -1) := by
  intro fuel
  induction fuel with
  | zero =>
      intro s e hfuel hlo hse hhi
      have : e = s := by omega
      subst this
      simp only [lookupGo]
      exact ⟨le_refl _, le_refl _, fun i h1 h2 => absurd (lt_of_le_of_lt h1 h2) (lt_irrefl _),
        fun h => absurd h (lt_irrefl _)⟩
  | succ n ih =>
      intro s e hfuel hlo hse hhi
      by_cases h1 : s < e
      · have hmidlt : s + (e - s) / 2 < e := by omega
        have hmidge : s ≤ s + (e - s) / 2 := by omega
        by_cases h2 : cmpKey (keys.getD (s + (e - s) / 2) 0) key = -1
        · have hstep : lookupGo keys key (n + 1) s e =
              lookupGo keys key n (s + (e - s) / 2 + 1) e := by
            simp only [lookupGo, if_pos h1, if_pos h2]
          obtain ⟨c1, c2, c3, c4⟩ := ih (s + (e - s) / 2 + 1) e (by omega) (by omega)
            (by omega) hhi
          rw [hstep]
          refine ⟨by omega, c2, ?_, c4⟩
          intro i hsi hir
          by_cases him : i ≤ s + (e - s) / 2
          · exact hmono i (s + (e - s) / 2) (by omega) him (by omega) h2
          · exact c3 i (by omega) hir
        · have hstep : lookupGo keys key (n + 1) s e =
              lookupGo keys key n s (s + (e - s) / 2) := by
            simp only [lookupGo, if_pos h1, if_neg h2]
          obtain ⟨c1, c2, c3, c4⟩ := ih s (s + (e - s) / 2) (by omega) hlo (by omega) (by omega)
          rw [hstep]
          refine ⟨c1, by omega, c3, ?_⟩
          intro hlt
          rcases lt_or_eq_of_le c2 with hc | hc
          · exact c4 hc
          · rw [hc]; exact h2
      · have : e = s := by omega
        subst this
        simp only [lookupGo, if_neg h1]
        exact ⟨le_refl _, le_refl _, fun i ha hb => absurd (lt_of_le_of_lt ha hb) (lt_irrefl _),
          fun h => absurd h (lt_irrefl _)⟩

theorem getD_map_fst (l : List (Int × Int)) (j : Nat) :
    (l.map Prod.fst).getD j 0 = (l.getD j (0, 0)).1 := by
  induction l generalizing j with
  | nil => simp [List.getD]
  | cons p t ih =>
      cases j with
      | zero => simp [List.getD]
      | succ m =>
          simp only [List.map_cons]
          show (List.map Prod.fst t).getD m 0 = (t.getD m (0, 0)).1
          exact ih m

theorem pairwise_drop_one_getD (keys : List Int) (hs : (keys.drop 1).Pairwise (· < ·))
    (i j : Nat) (h1 : 1 ≤ i) (hij : i < j) (hj : j < keys.length) :
    keys.getD i 0 < keys.getD j 0 := by
  have hi' : i - 1 < (keys.drop 1).length := by simp; omega
  have hj' : j - 1 < (keys.drop 1).length := by simp; omega
  have hp := List.pairwise_iff_getElem.1 hs (i - 1) (j - 1) hi' hj' (by omega)
  simp only [List.getElem_drop] at hp
  have e1 : 1 + (i - 1) = i := by omega
  have e2 : 1 + (j - 1) = j := by omega
  simp only [e1, e2] at hp
  rw [List.getD_eq_getElem _ _ (by omega : i < keys.length), List.getD_eq_getElem _ _ hj]
  exact hp

/-- C3 counterexample: on the internal page `[(sentinel, 10), (5, 20)]` (one
separator, 5) and search key 5, the source `Lookup` returns child 10
(`array[0].second`, the child at index `j - 1`), while the behaviour stated
by the claim — descend into `array[i-1].second` for the smallest `i` with
`key < array[i].first`, i.e. into child `j` on an equal separator — returns
child 20. -/
theorem c3_counterexample :
    ipLookup [(0, 10), (5, 20)] 5 = 10 ∧ ipLookupClaimed [(0, 10), (5, 20)] 5 = 20 ∧
    (10 : Int) ≠ 20 := by decide

/-- C3 (amended): for an internal page whose separators at indices
`[1..size)` are strictly increasing, `Lookup` returns `array[i-1].second`
where `i` is the smallest index in `[1..size)` with `key ≤ array[i].first`
(`i = size` when no such index exists); in particular a search key equal to
the separator at index `j` descends into child `j - 1`, not child `j`. -/
theorem c3_internal_lookup_amended (arr : List (Int × Int)) (key : Int)
    (hsz : 1 ≤ arr.length)
    (hsorted : ((arr.map Prod.fst).drop 1).Pairwise (· < ·)) :
    ∃ i, 1 ≤ i ∧ i ≤ arr.length ∧
      (∀ j, 1 ≤ j → j < i → (arr.getD j (0, 0)).1 < key) ∧
      (i < arr.length → key ≤ (arr.getD i (0, 0)).1) ∧
      ipLookup arr key = (arr.getD (i - 1) (0, 0)).2 := by
  have hmono : ∀ i j, 1 ≤ i → i ≤ j → j < arr.length →
      cmpKey ((arr.map Prod.fst).getD j 0) key = -1 →
      cmpKey ((arr.map Prod.fst).getD i 0) key = -1 := by
    intro i j h1 hij hj hcmp
    rw [cmpKey_eq_neg_one] at hcmp ⊢
    rcases lt_or_eq_of_le hij with hlt | heq
    · have hd := pairwise_drop_one_getD (arr.map Prod.fst) hsorted i j h1 hlt
        (by rw [List.length_map]; exact hj)
      exact lt_trans hd hcmp
    · rw [heq]; exact hcmp
  obtain ⟨c1, c2, c3, c4⟩ := lookupGo_char (arr.map Prod.fst) key 1 arr.length hmono
    (arr.length - 1) 1 arr.length (by omega) (le_refl 1) hsz (le_refl _)
  have hidx : lookupIdx (arr.map Prod.fst) key arr.length =
      lookupGo (arr.map Prod.fst) key (arr.length - 1) 1 arr.length := rfl
  rw [← hidx] at c1 c2 c3 c4
  refine ⟨lookupIdx (arr.map Prod.fst) key arr.length, c1, c2, ?_, ?_, rfl⟩
  · intro j hj1 hj2
    have hcj := c3 j hj1 hj2
    rw [cmpKey_eq_neg_one, getD_map_fst] at hcj
    exact hcj
  · intro hlt
    have hc4 := c4 hlt
    rw [cmpKey_eq_neg_one, getD_map_fst] at hc4
    omega

theorem c3_amended_witness :
    ∃ i, 1 ≤ i ∧ i ≤ ([(0, 100), (5, 200), (8, 300)] : List (Int × Int)).length ∧
      (∀ j, 1 ≤ j → j < i →
        (([(0, 100), (5, 200), (8, 300)] : List (Int × Int)).getD j (0, 0)).1 < 6) ∧
      (i < ([(0, 100), (5, 200), (8, 300)] : List (Int × Int)).length →
        (6 : Int) ≤ (([(0, 100), (5, 200), (8, 300)] : List (Int × Int)).getD i (0, 0)).1) ∧
      ipLookup [(0, 100), (5, 200), (8, 300)] 6 =
        (([(0, 100), (5, 200), (8, 300)] : List (Int × Int)).getD (i - 1) (0, 0)).2 :=
  c3_internal_lookup_amended [(0, 100), (5, 200), (8, 300)] 6 (by decide) (by decide)

end SqliteFall2017

namespace SqliteFall2017

/-! ## C2 / C7 — B+Tree insertion -/

theorem list_set_get_self {α : Type} (l : List α) (i : Nat) (h : i < l.length) :
    l.set i (l.get ⟨i, h⟩) = l := by
  induction l generalizing i with
  | nil => cases h
  | cons a t ih =>
      cases i with
      | zero => rfl
      | succ m =>
          show a :: t.set m (t.get ⟨m, by simpa using h⟩) = a :: t
          rw [ih m (by simpa using h)]

theorem leafInsert_of_lookup_some (es : List (Int × Int)) (k v v2 : Int)
    (h : leafLookup es k = some v) : leafInsert k v2 es = es := by
  induction es with
  | nil => simp [leafLookup] at h
  | cons p t ih =>
      obtain ⟨k', v'⟩ := p
      simp only [leafLookup] at h
      simp only [leafInsert]
      by_cases h1 : k < k'
      · rw [if_pos h1] at h; exact absurd h (by simp)
      · rw [if_neg h1] at h
        rw [if_neg h1]
        by_cases h2 : k = k'
        · rw [if_pos h2]
        · rw [if_neg h2] at h
          rw [if_neg h2, ih h]

theorem insertNodeF_leaf_of_found (Ml Mi fuel : Nat) (k v v2 : Int) (es : List (Int × Int))
    (h : leafLookup es k = some v) :
    insertNodeF Ml Mi k v2 fuel (.leaf es) = (.leaf es, none, false) := by
  have hins : leafInsert k v2 es = es := leafInsert_of_lookup_some es k v v2 h
  cases fuel with
  | zero => simp [insertNodeF, hins]
  | succ n => simp [insertNodeF, hins]

/-- A successful point lookup pins down the descent: `InsertIntoLeaf` reaches
the same leaf through the same `Lookup` path, finds the key present, performs
no mutation and reports `osize == new_size`. -/
theorem insertNodeF_of_getValueF (Ml Mi : Nat) (k v v2 : Int) :
    ∀ fuel t, getValueF k fuel t = some v →
      insertNodeF Ml Mi k v2 fuel t = (t, none, false) := by
  intro fuel
  induction fuel with
  | zero =>
      intro t h
      cases t with
      | leaf es => exact insertNodeF_leaf_of_found Ml Mi 0 k v v2 es h
      | node cs => exact absurd h (by simp [getValueF])
  | succ n ih =>
      intro t h
      cases t with
      | leaf es => exact insertNodeF_leaf_of_found Ml Mi (n + 1) k v v2 es h
      | node cs =>
          by_cases hlt : lookupIdx (cs.map Prod.fst) k cs.length - 1 < cs.length
          · rw [getValueF] at h
            rw [dif_pos hlt] at h
            have hrec := ih _ h
            rw [insertNodeF]
            rw [dif_pos hlt, hrec]
            show (BTree.node (cs.set (lookupIdx (cs.map Prod.fst) k cs.length - 1)
              ((cs.get ⟨lookupIdx (cs.map Prod.fst) k cs.length - 1, hlt⟩).1,
               (cs.get ⟨lookupIdx (cs.map Prod.fst) k cs.length - 1, hlt⟩).2)), none, false) =
              (BTree.node cs, none, false)
            rw [Prod.mk.eta, list_set_get_self]
          · rw [getValueF] at h
            rw [dif_neg hlt] at h
            exact absurd h (by simp)

/-- C7: inserting a key already stored with value `v` is rejected: the tree
is returned unchanged with result `false`, and a subsequent `GetValue` still
returns `v`. -/
theorem c7_duplicate_insert_rejected (Ml Mi : Nat) (t : BTree) (k v v2 : Int)
    (h : getValue t k = some v) :
    treeInsert Ml Mi (some t) k v2 = (some t, false) ∧ getValue t k = some v := by
  refine ⟨?_, h⟩
  have hmain := insertNodeF_of_getValueF Ml Mi k v v2 (btHeight t) t h
  simp only [treeInsert, hmain]

theorem c7_witness :
    treeInsert 4 4 (some c7Tree) 3 99 = (some c7Tree, false) ∧
      getValue c7Tree 3 = some 30 :=
  c7_duplicate_insert_rejected 4 4 c7Tree 3 30 99 (by rfl)

end SqliteFall2017

namespace SqliteFall2017

/-! ## C2 — leaf split separator -/

theorem leafInsert_length_of_lookup_none (es : List (Int × Int)) (k v : Int)
    (h : leafLookup es k = none) :
    (leafInsert k v es).length = es.length + 1 := by
  induction es with
  | nil => rfl
  | cons p t ih =>
      obtain ⟨k', v'⟩ := p
      simp only [leafLookup] at h
      simp only [leafInsert]
      by_cases h1 : k < k'
      · rw [if_pos h1]; rfl
      · rw [if_neg h1] at h
        rw [if_neg h1]
        by_cases h2 : k = k'
        · rw [if_pos h2] at h; exact absurd h (by simp)
        · rw [if_neg h2] at h
          rw [if_neg h2]
          simp only [List.length_cons, ih h]

theorem leafInsert_mem (es : List (Int × Int)) (k v : Int) :
    ∀ q ∈ leafInsert k v es, q = (k, v) ∨ q ∈ es := by
  induction es with
  | nil => intro q hq; simp [leafInsert] at hq; exact Or.inl hq
  | cons p t ih =>
      obtain ⟨k', v'⟩ := p
      intro q hq
      simp only [leafInsert] at hq
      by_cases h1 : k < k'
      · rw [if_pos h1] at hq
        rcases List.mem_cons.1 hq with hh | hh
        · exact Or.inl hh
        · exact Or.inr hh
      · rw [if_neg h1] at hq
        by_cases h2 : k = k'
        · rw [if_pos h2] at hq
          exact Or.inr hq
        · rw [if_neg h2] at hq
          rcases List.mem_cons.1 hq with hh | hh
          · exact Or.inr (by simp [hh])
          · rcases ih q hh with hh2 | hh2
            · exact Or.inl hh2
            · exact Or.inr (List.mem_cons_of_mem _ hh2)

theorem leafInsert_pairwise (es : List (Int × Int)) (k v : Int)
    (hs : es.Pairwise (fun p q => p.1 < q.1)) (habs : leafLookup es k = none) :
    (leafInsert k v es).Pairwise (fun p q => p.1 < q.1) := by
  induction es with
  | nil => simp [leafInsert]
  | cons p t ih =>
      obtain ⟨k', v'⟩ := p
      rw [List.pairwise_cons] at hs
      obtain ⟨hhead, ht⟩ := hs
      simp only [leafLookup] at habs
      simp only [leafInsert]
      by_cases h1 : k < k'
      · rw [if_pos h1]
        rw [List.pairwise_cons]
        refine ⟨?_, ?_⟩
        · intro q hq
          rcases List.mem_cons.1 hq with hh | hh
          · rw [hh]; exact h1
          · exact lt_trans h1 (hhead q hh)
        · rw [List.pairwise_cons]
          exact ⟨hhead, ht⟩
      · rw [if_neg h1] at habs
        rw [if_neg h1]
        by_cases h2 : k = k'
        · rw [if_pos h2] at habs; exact absurd habs (by simp)
        · rw [if_neg h2] at habs
          rw [if_neg h2]
          rw [List.pairwise_cons]
          refine ⟨?_, ih ht habs⟩
          intro q hq
          rcases leafInsert_mem t k v q hq with hh | hh
          · rw [hh]
            show k' < k
            omega
          · exact hhead q hh

/-- C2 counterexample: a full leaf `[1, 2, 3, 4]` (max size 4) receiving key
5 splits into `L = [1, 2]` and `R = [3, 4, 5]`; the separator passed to
`InsertIntoParent` is `L`'s last key 2 (line 122 of `b_plus_tree.cpp`), not
`R`'s first key 3 as the claim states. -/
theorem c2_counterexample :
    insertNodeF 4 4 5 5 1 (.leaf [(1, 1), (2, 2), (3, 3), (4, 4)]) =
      (.leaf [(1, 1), (2, 2)], some (2, .leaf [(3, 3), (4, 4), (5, 5)]), true) ∧
    (2 : Int) ≠ 3 := ⟨rfl, by decide⟩

/-- C2 (amended): when an insert overflows a leaf (sorted, previously of full
size `Ml ≥ 2`, key not present), the page splits at `new_size / 2` and the
separator passed up to `InsertIntoParent` is the **left** page's last key —
strictly smaller than `R`'s first key. -/
theorem c2_separator_is_left_last_key (Ml Mi fuel : Nat) (es : List (Int × Int)) (k v : Int)
    (hsorted : es.Pairwise (fun p q => p.1 < q.1))
    (hfull : es.length = Ml) (hMl : 2 ≤ Ml) (habs : leafLookup es k = none) :
    insertNodeF Ml Mi k v fuel (.leaf es) =
      (.leaf ((leafInsert k v es).take ((leafInsert k v es).length / 2)),
       some ((((leafInsert k v es).take ((leafInsert k v es).length / 2)).getLastD (0, 0)).1,
             .leaf ((leafInsert k v es).drop ((leafInsert k v es).length / 2))),
       true) ∧
    (((leafInsert k v es).take ((leafInsert k v es).length / 2)).getLastD (0, 0)).1 <
      (((leafInsert k v es).drop ((leafInsert k v es).length / 2)).headD (0, 0)).1 := by
  have hlen : (leafInsert k v es).length = Ml + 1 := by
    rw [leafInsert_length_of_lookup_none es k v habs, hfull]
  have hne : ¬ (leafInsert k v es).length = es.length := by omega
  have hgt : (leafInsert k v es).length > Ml := by omega
  constructor
  · cases fuel with
    | zero => simp only [insertNodeF, if_neg hne, if_pos hgt]
    | succ n => simp only [insertNodeF, if_neg hne, if_pos hgt]
  · have hp2 : (leafInsert k v es).Pairwise (fun p q => p.1 < q.1) :=
      leafInsert_pairwise es k v hsorted habs
    have hstpos : 1 ≤ (leafInsert k v es).length / 2 := by omega
    have hstlt : (leafInsert k v es).length / 2 < (leafInsert k v es).length := by omega
    have hLlen : ((leafInsert k v es).take ((leafInsert k v es).length / 2)).length =
        (leafInsert k v es).length / 2 := by
      rw [List.length_take]; omega
    have hLne : (leafInsert k v es).take ((leafInsert k v es).length / 2) ≠ [] := by
      intro hc
      rw [hc] at hLlen
      simp at hLlen
      omega
    have hRne : (leafInsert k v es).drop ((leafInsert k v es).length / 2) ≠ [] := by
      intro hc
      have := congrArg List.length hc
      rw [List.length_drop] at this
      simp at this
      omega
    have hgl : (((leafInsert k v es).take ((leafInsert k v es).length / 2)).getLastD (0, 0)) =
        (leafInsert k v es).get ⟨(leafInsert k v es).length / 2 - 1, by omega⟩ := by
      rw [List.getLastD_eq_getLast?, List.getLast?_eq_getLast _ hLne, Option.getD_some,
        List.getLast_eq_getElem]
      rw [List.getElem_take]
      congr 1
      omega
    have hhd : (((leafInsert k v es).drop ((leafInsert k v es).length / 2)).headD (0, 0)) =
        (leafInsert k v es).get ⟨(leafInsert k v es).length / 2, hstlt⟩ := by
      rw [List.headD_eq_head?, List.head?_eq_head hRne, Option.getD_some,
        List.head_eq_getElem]
      rw [List.getElem_drop]
      congr 1
    rw [hgl, hhd]
    exact List.pairwise_iff_getElem.1 hp2 _ _ (by omega) (by omega) (by omega)

theorem c2_amended_witness :
    insertNodeF 4 4 5 5 3 (.leaf [(1, 1), (2, 2), (3, 3), (4, 4)]) =
      (.leaf ((leafInsert 5 5 [(1, 1), (2, 2), (3, 3), (4, 4)]).take
        ((leafInsert 5 5 [(1, 1), (2, 2), (3, 3), (4, 4)]).length / 2)),
       some ((((leafInsert 5 5 [(1, 1), (2, 2), (3, 3), (4, 4)]).take
          ((leafInsert 5 5 [(1, 1), (2, 2), (3, 3), (4, 4)]).length / 2)).getLastD (0, 0)).1,
         .leaf ((leafInsert 5 5 [(1, 1), (2, 2), (3, 3), (4, 4)]).drop
          ((leafInsert 5 5 [(1, 1), (2, 2), (3, 3), (4, 4)]).length / 2))),
       true) ∧
    (((leafInsert 5 5 [(1, 1), (2, 2), (3, 3), (4, 4)]).take
        ((leafInsert 5 5 [(1, 1), (2, 2), (3, 3), (4, 4)]).length / 2)).getLastD (0, 0)).1 <
      (((leafInsert 5 5 [(1, 1), (2, 2), (3, 3), (4, 4)]).drop
        ((leafInsert 5 5 [(1, 1), (2, 2), (3, 3), (4, 4)]).length / 2)).headD (0, 0)).1 :=
  c2_separator_is_left_last_key 4 4 3 [(1, 1), (2, 2), (3, 3), (4, 4)] 5 5
    (by decide) rfl (by decide) (by decide)

end SqliteFall2017

namespace SqliteFall2017

/-! ## C8 / C9 — extendible hash: association-list and indexing lemmas -/

theorem alLookup_alInsert_self {β : Type} (k : Nat) (v : β) (m : List (Nat × β)) :
    alLookup k (alInsert k v m) = some v := by
  induction m with
  | nil => simp [alInsert, alLookup]
  | cons p t ih =>
      obtain ⟨k2, v2⟩ := p
      by_cases hk : k2 = k
      · simp [alInsert, alLookup, hk]
      · simp [alInsert, alLookup, hk, ih]

theorem alLookup_alInsert_ne {β : Type} (k k2 : Nat) (v : β) (m : List (Nat × β))
    (hne : k2 ≠ k) : alLookup k2 (alInsert k v m) = alLookup k2 m := by
  have hne2 : ¬ k = k2 := fun hh => hne hh.symm
  induction m with
  | nil => simp [alInsert, alLookup, hne2]
  | cons p t ih =>
      obtain ⟨k3, v3⟩ := p
      by_cases hk : k3 = k
      · subst hk
        simp only [alInsert, if_pos rfl, alLookup, if_neg hne2]
      · simp only [alInsert, if_neg hk]
        by_cases hk2 : k3 = k2
        · simp [alLookup, hk2]
        · simp [alLookup, hk2, ih]

theorem alErase_sublist {β : Type} (k : Nat) (m : List (Nat × β)) :
    (alErase k m).Sublist m := by
  induction m with
  | nil => simp [alErase]
  | cons p t ih =>
      obtain ⟨k2, v2⟩ := p
      by_cases hk : k2 = k
      · simp only [alErase, if_pos hk]
        exact (List.sublist_cons_self _ _)
      · simp only [alErase, if_neg hk]
        exact List.Sublist.cons₂ _ ih

theorem alLookup_eq_none_of_not_mem {β : Type} (k : Nat) (m : List (Nat × β))
    (h : k ∉ m.map Prod.fst) : alLookup k m = none := by
  induction m with
  | nil => rfl
  | cons p t ih =>
      obtain ⟨k2, v2⟩ := p
      simp only [List.map_cons, List.mem_cons] at h
      push_neg at h
      have hne : ¬ k2 = k := fun hh => h.1 hh.symm
      simp only [alLookup, if_neg hne]
      exact ih h.2

theorem alLookup_isSome_of_mem {β : Type} (k : Nat) (m : List (Nat × β))
    (h : k ∈ m.map Prod.fst) : (alLookup k m).isSome := by
  induction m with
  | nil => simp at h
  | cons p t ih =>
      obtain ⟨k2, v2⟩ := p
      by_cases hk : k2 = k
      · simp [alLookup, hk]
      · simp only [List.map_cons, List.mem_cons] at h
        rcases h with h | h
        · exact absurd h.symm hk
        · simp only [alLookup, if_neg hk]
          exact ih h

theorem alLookup_alErase_self {β : Type} (k : Nat) (m : List (Nat × β))
    (hnd : (m.map Prod.fst).Nodup) : alLookup k (alErase k m) = none := by
  induction m with
  | nil => rfl
  | cons p t ih =>
      obtain ⟨k2, v2⟩ := p
      simp only [List.map_cons, List.nodup_cons] at hnd
      by_cases hk : k2 = k
      · simp only [alErase, if_pos hk]
        subst hk
        exact alLookup_eq_none_of_not_mem k2 t hnd.1
      · simp only [alErase, if_neg hk, alLookup, if_neg hk]
        exact ih hnd.2

theorem alLookup_alErase_ne {β : Type} (k k2 : Nat) (m : List (Nat × β))
    (hne : k2 ≠ k) : alLookup k2 (alErase k m) = alLookup k2 m := by
  induction m with
  | nil => rfl
  | cons p t ih =>
      obtain ⟨k3, v3⟩ := p
      by_cases hk : k3 = k
      · subst hk
        have hne3 : ¬ k3 = k2 := fun hh => hne hh.symm
        simp [alErase, alLookup, hne3]
      · simp only [alErase, if_neg hk]
        by_cases hk2 : k3 = k2
        · simp [alLookup, hk2]
        · simp [alLookup, hk2, ih]

theorem alInsert_keys {β : Type} (k : Nat) (v : β) (m : List (Nat × β)) :
    ∀ x ∈ (alInsert k v m).map Prod.fst, x = k ∨ x ∈ m.map Prod.fst := by
  induction m with
  | nil => intro x hx; simp [alInsert] at hx; exact Or.inl hx
  | cons p t ih =>
      obtain ⟨k2, v2⟩ := p
      intro x hx
      by_cases hk : k2 = k
      · rw [alInsert, if_pos hk] at hx
        simp only [List.map_cons, List.mem_cons] at hx ⊢
        rcases hx with hx | hx
        · exact Or.inl hx
        · exact Or.inr (Or.inr hx)
      · rw [alInsert, if_neg hk] at hx
        simp only [List.map_cons, List.mem_cons] at hx ⊢
        rcases hx with hx | hx
        · exact Or.inr (Or.inl hx)
        · rcases ih x hx with hh | hh
          · exact Or.inl hh
          · exact Or.inr (Or.inr hh)

theorem alInsert_keys_nodup {β : Type} (k : Nat) (v : β) (m : List (Nat × β))
    (hnd : (m.map Prod.fst).Nodup) : ((alInsert k v m).map Prod.fst).Nodup := by
  induction m with
  | nil => simp [alInsert]
  | cons p t ih =>
      obtain ⟨k2, v2⟩ := p
      simp only [List.map_cons, List.nodup_cons] at hnd
      by_cases hk : k2 = k
      · subst hk
        have hred : alInsert k2 v ((k2, v2) :: t) = (k2, v) :: t := by
          rw [alInsert, if_pos rfl]
        rw [hred]
        simp only [List.map_cons, List.nodup_cons]
        exact hnd
      · simp only [alInsert, if_neg hk, List.map_cons, List.nodup_cons]
        refine ⟨?_, ih hnd.2⟩
        intro hmem
        rcases alInsert_keys k v t k2 hmem with hh | hh
        · exact hk hh
        · exact hnd.1 hh

theorem alLookup_filter_key {β : Type} (f : Nat × β → Bool) (g2 : Nat → Bool)
    (hf : ∀ p, f p = g2 p.1) (m : List (Nat × β)) (k : Nat)
    (hnd : (m.map Prod.fst).Nodup) :
    alLookup k (m.filter f) = if g2 k then alLookup k m else none := by
  induction m with
  | nil => simp [alLookup]
  | cons p t ih =>
      obtain ⟨k2, v2⟩ := p
      simp only [List.map_cons, List.nodup_cons] at hnd
      by_cases hk : k2 = k
      · subst hk
        by_cases hg : g2 k2
        · rw [List.filter_cons_of_pos (by rw [hf]; exact hg)]
          simp [alLookup, hg]
        · rw [List.filter_cons_of_neg (by rw [hf]; simpa using hg)]
          rw [if_neg hg]
          refine alLookup_eq_none_of_not_mem _ _ ?_
          intro hmem
          have hsub : ((t.filter f).map Prod.fst).Sublist (t.map Prod.fst) :=
            List.Sublist.map _ (List.filter_sublist t)
          exact hnd.1 (hsub.mem hmem)
      · by_cases hg : f (k2, v2)
        · rw [List.filter_cons_of_pos hg]
          simp only [alLookup, if_neg hk]
          exact ih hnd.2
        · rw [List.filter_cons_of_neg (by simpa using hg)]
          simp only [alLookup, if_neg hk]
          exact ih hnd.2

/-! getD helpers -/

theorem getD_append_left2 {α : Type} (l1 l2 : List α) (i : Nat) (d : α)
    (h : i < l1.length) : (l1 ++ l2).getD i d = l1.getD i d := by
  rw [List.getD_eq_getElem _ _ (by rw [List.length_append]; omega),
    List.getD_eq_getElem _ _ h]
  exact List.getElem_append_left h

theorem getD_append_right2 {α : Type} (l1 l2 : List α) (i : Nat) (d : α)
    (h : l1.length ≤ i) : (l1 ++ l2).getD i d = l2.getD (i - l1.length) d := by
  by_cases h2 : i < l1.length + l2.length
  · rw [List.getD_eq_getElem _ _ (by rw [List.length_append]; omega),
      List.getD_eq_getElem _ _ (by omega)]
    exact List.getElem_append_right h
  · rw [List.getD_eq_getElem?_getD, List.getD_eq_getElem?_getD]
    rw [List.getElem?_eq_none (by rw [List.length_append]; omega),
      List.getElem?_eq_none (by omega)]

theorem getD_set_self2 {α : Type} (l : List α) (i : Nat) (a : α) (d : α)
    (h : i < l.length) : (l.set i a).getD i d = a := by
  rw [List.getD_eq_getElem _ _ (by rw [List.length_set]; omega)]
  exact List.getElem_set_self _

theorem getD_set_ne2 {α : Type} (l : List α) (i j : Nat) (a : α) (d : α)
    (h : i ≠ j) : (l.set i a).getD j d = l.getD j d := by
  rw [List.getD_eq_getElem?_getD, List.getD_eq_getElem?_getD, List.getElem?_set,
    if_neg h]

theorem getD_mem_of_lt {α : Type} (l : List α) (i : Nat) (d : α) (h : i < l.length) :
    l.getD i d ∈ l := by
  rw [List.getD_eq_getElem _ _ h]
  exact List.getElem_mem h

theorem getD_map_range (n : Nat) (f : Nat → Nat) (i : Nat) (h : i < n) :
    ((List.range n).map f).getD i 0 = f i := by
  rw [List.getD_eq_getElem _ _ (by simp; omega)]
  rw [List.getElem_map]
  congr 1
  exact List.getElem_range _ _

/-! bit-level lemmas -/

theorem ehSlot_eq_mod (h : Nat → Nat) (g k : Nat) : ehSlot h g k = h k % 2 ^ g := by
  unfold ehSlot
  rw [Nat.shiftLeft_eq, one_mul, Nat.and_pow_two_sub_one_eq_mod]

theorem mask_and_ne_zero_iff (l x : Nat) : ¬ 1 <<< l &&& x = 0 ↔ x.testBit l := by
  rw [Nat.shiftLeft_eq, one_mul, Nat.two_pow_and]
  have hp := Nat.two_pow_pos l
  cases hb : x.testBit l
  · simp
  · simp only [Bool.toNat_true, Nat.mul_one, iff_true]
    omega

theorem testBit_mod_two_pow_of_lt (x l g : Nat) (h : l < g) :
    (x % 2 ^ g).testBit l = x.testBit l := by
  rw [Nat.testBit_mod_two_pow]
  simp [h]

end SqliteFall2017

namespace SqliteFall2017

/-! ## C8 / C9 — extendible hash: doubling and splitting -/

theorem ehBucketIdx_lt_dirLength (h : Nat → Nat) (s : EHState) (k : Nat)
    (hlen : s.dir.length = 2 ^ s.global) :
    ehSlot h s.global k < s.dir.length := by
  rw [ehSlot_eq_mod, hlen]
  exact Nat.mod_lt _ (Nat.two_pow_pos _)

theorem ehBucketIdx_lt_poolLength (h : Nat → Nat) (s : EHState) (k : Nat)
    (hinv : EHInv s) : ehBucketIdx h s k < s.pool.length := by
  obtain ⟨hlen, hdir, _, _⟩ := hinv
  exact hdir _ (getD_mem_of_lt _ _ _ (ehBucketIdx_lt_dirLength h s k hlen))

theorem ehDouble_pool (s : EHState) (b : EHBucket) : (ehDouble s b).pool = s.pool := by
  unfold ehDouble
  split <;> rfl

theorem ehDouble_sizeLimit (s : EHState) (b : EHBucket) :
    (ehDouble s b).sizeLimit = s.sizeLimit := by
  unfold ehDouble
  split <;> rfl

theorem ehDouble_inv (s : EHState) (b : EHBucket) (hinv : EHInv s) :
    EHInv (ehDouble s b) := by
  obtain ⟨hlen, hdir, hdepth, hnd⟩ := hinv
  unfold ehDouble
  split
  · refine ⟨?_, ?_, ?_, hnd⟩
    · show (s.dir ++ s.dir).length = 2 ^ (s.global + 1)
      rw [List.length_append, hlen, pow_succ]
      omega
    · intro x hx
      rcases List.mem_append.1 hx with hh | hh
      · exact hdir x hh
      · exact hdir x hh
    · intro x hx
      rcases List.mem_append.1 hx with hh | hh
      · exact le_trans (hdepth x hh) (Nat.le_succ _)
      · exact le_trans (hdepth x hh) (Nat.le_succ _)
  · exact ⟨hlen, hdir, hdepth, hnd⟩

theorem ehDouble_depth_lt (s : EHState) (b : EHBucket) (hle : b.depth ≤ s.global) :
    b.depth < (ehDouble s b).global := by
  unfold ehDouble
  split
  · next heq => rw [heq]; exact Nat.lt_succ_self _
  · next hne =>
      show b.depth < s.global
      omega

theorem ehDouble_bucketIdx (h : Nat → Nat) (s : EHState) (b : EHBucket) (k : Nat)
    (hlen : s.dir.length = 2 ^ s.global) :
    ehBucketIdx h (ehDouble s b) k = ehBucketIdx h s k := by
  unfold ehDouble
  split
  · show (s.dir ++ s.dir).getD (ehSlot h (s.global + 1) k) 0 =
      s.dir.getD (ehSlot h s.global k) 0
    rw [ehSlot_eq_mod, ehSlot_eq_mod]
    have hdvd : (2 : Nat) ^ s.global ∣ 2 ^ (s.global + 1) := by
      rw [pow_succ]
      exact Dvd.intro 2 rfl
    have hmm : h k % 2 ^ (s.global + 1) % 2 ^ s.global = h k % 2 ^ s.global :=
      Nat.mod_mod_of_dvd _ hdvd
    have hbound : h k % 2 ^ (s.global + 1) < 2 ^ (s.global + 1) :=
      Nat.mod_lt _ (Nat.two_pow_pos _)
    by_cases hlt : h k % 2 ^ (s.global + 1) < 2 ^ s.global
    · rw [getD_append_left2 _ _ _ _ (by rw [hlen]; exact hlt)]
      congr 1
      rw [← hmm]
      exact (Nat.mod_eq_of_lt hlt).symm
    · rw [getD_append_right2 _ _ _ _ (by rw [hlen]; omega)]
      congr 1
      rw [hlen]
      have h2 : 2 ^ s.global ≤ h k % 2 ^ (s.global + 1) := by omega
      have h3 : h k % 2 ^ (s.global + 1) - 2 ^ s.global < 2 ^ s.global := by
        rw [pow_succ] at hbound
        omega
      calc h k % 2 ^ (s.global + 1) - 2 ^ s.global
          = (h k % 2 ^ (s.global + 1) - 2 ^ s.global) % 2 ^ s.global :=
            (Nat.mod_eq_of_lt h3).symm
        _ = h k % 2 ^ (s.global + 1) % 2 ^ s.global := (Nat.mod_eq_sub_mod h2).symm
        _ = h k % 2 ^ s.global := hmm
  · rfl

theorem ehDouble_find (h : Nat → Nat) (s : EHState) (b : EHBucket) (k2 : Nat)
    (hlen : s.dir.length = 2 ^ s.global) :
    ehFind h (ehDouble s b) k2 = ehFind h s k2 := by
  unfold ehFind ehGetBucket
  rw [ehDouble_pool, ehDouble_bucketIdx h s b k2 hlen]

end SqliteFall2017

namespace SqliteFall2017

theorem ehSplitStep_dir_getD (h : Nat → Nat) (bidx : Nat) (b : EHBucket) (s1 : EHState)
    (i : Nat) (hi : i < s1.dir.length) :
    (ehSplitStep h bidx b s1).dir.getD i 0 =
      if s1.dir.getD i 0 = bidx then
        if ¬ 1 <<< b.depth &&& i = 0 then s1.pool.length + 1 else s1.pool.length
      else s1.dir.getD i 0 := by
  show ((List.range s1.dir.length).map _).getD i 0 = _
  rw [getD_map_range _ _ i hi]

theorem ehSplitStep_inv (h : Nat → Nat) (s1 : EHState) (bidx : Nat) (b : EHBucket)
    (hinv : EHInv s1) (hbidx : bidx < s1.pool.length)
    (hbeq : s1.pool.getD bidx ⟨0, []⟩ = b)
    (hdepth : b.depth < s1.global) :
    EHInv (ehSplitStep h bidx b s1) := by
  obtain ⟨hlen, hdir, hdep, hnd⟩ := hinv
  have hbmem : b ∈ s1.pool := by
    rw [← hbeq]
    exact getD_mem_of_lt _ _ _ hbidx
  have hpoollen : (ehSplitStep h bidx b s1).pool.length = s1.pool.length + 2 := by
    show (s1.pool ++ _).length = _
    rw [List.length_append]
    rfl
  refine ⟨?_, ?_, ?_, ?_⟩
  · show ((List.range s1.dir.length).map _).length = 2 ^ s1.global
    rw [List.length_map, List.length_range, hlen]
  · intro x hx
    rw [hpoollen]
    obtain ⟨i, hi, hfx⟩ := List.mem_map.1 hx
    rw [List.mem_range] at hi
    rw [← hfx]
    by_cases hc : s1.dir.getD i 0 = bidx
    · rw [if_pos hc]
      by_cases hbit : ¬ 1 <<< b.depth &&& i = 0
      · rw [if_pos hbit]; omega
      · rw [if_neg hbit]; omega
    · rw [if_neg hc]
      have := hdir _ (getD_mem_of_lt s1.dir i 0 hi)
      omega
  · intro x hx
    obtain ⟨i, hi, hfx⟩ := List.mem_map.1 hx
    rw [List.mem_range] at hi
    rw [← hfx]
    by_cases hc : s1.dir.getD i 0 = bidx
    · rw [if_pos hc]
      by_cases hbit : ¬ 1 <<< b.depth &&& i = 0
      · rw [if_pos hbit]
        show ((s1.pool ++ _).getD (s1.pool.length + 1) _).depth ≤ s1.global
        rw [getD_append_right2 _ _ _ _ (by omega)]
        have hidx1 : s1.pool.length + 1 - s1.pool.length = 1 := by omega
        rw [hidx1]
        show b.depth + 1 ≤ s1.global
        omega
      · rw [if_neg hbit]
        show ((s1.pool ++ _).getD s1.pool.length _).depth ≤ s1.global
        rw [getD_append_right2 _ _ _ _ (by omega)]
        have hidx0 : s1.pool.length - s1.pool.length = 0 := by omega
        rw [hidx0]
        show b.depth + 1 ≤ s1.global
        omega
    · rw [if_neg hc]
      have hlt := hdir _ (getD_mem_of_lt s1.dir i 0 hi)
      show ((s1.pool ++ _).getD (s1.dir.getD i 0) _).depth ≤ s1.global
      rw [getD_append_left2 _ _ _ _ hlt]
      exact hdep _ (getD_mem_of_lt s1.dir i 0 hi)
  · intro b2 hb2
    rcases List.mem_append.1 hb2 with hh | hh
    · exact hnd b2 hh
    · have hbn := hnd b hbmem
      rcases List.mem_cons.1 hh with hh2 | hh2
      · rw [hh2]
        exact ((List.filter_sublist _).map Prod.fst).nodup hbn
      · rcases List.mem_cons.1 hh2 with hh3 | hh3
        · rw [hh3]
          exact ((List.filter_sublist _).map Prod.fst).nodup hbn
        · simp at hh3

theorem ehSplitStep_find (h : Nat → Nat) (s1 : EHState) (bidx : Nat) (b : EHBucket)
    (hinv : EHInv s1) (hbidx : bidx < s1.pool.length)
    (hbeq : s1.pool.getD bidx ⟨0, []⟩ = b)
    (hdepth : b.depth < s1.global) (k2 : Nat) :
    ehFind h (ehSplitStep h bidx b s1) k2 = ehFind h s1 k2 := by
  obtain ⟨hlen, hdir, hdep, hnd⟩ := hinv
  have hbmem : b ∈ s1.pool := by
    rw [← hbeq]
    exact getD_mem_of_lt _ _ _ hbidx
  have hbn : (b.map.map Prod.fst).Nodup := hnd b hbmem
  have hslot : ehSlot h s1.global k2 < s1.dir.length :=
    ehBucketIdx_lt_dirLength h s1 k2 hlen
  have hgeq : (ehSplitStep h bidx b s1).global = s1.global := rfl
  unfold ehFind ehGetBucket ehBucketIdx
  rw [hgeq, ehSplitStep_dir_getD h bidx b s1 _ hslot]
  by_cases hc : s1.dir.getD (ehSlot h s1.global k2) 0 = bidx
  · rw [if_pos hc, hc, hbeq]
    have hbitagree : (¬ 1 <<< b.depth &&& ehSlot h s1.global k2 = 0) ↔
        (¬ 1 <<< b.depth &&& h k2 = 0) := by
      rw [mask_and_ne_zero_iff, mask_and_ne_zero_iff, ehSlot_eq_mod]
      rw [testBit_mod_two_pow_of_lt _ _ _ hdepth]
    by_cases hbit : ¬ 1 <<< b.depth &&& ehSlot h s1.global k2 = 0
    · rw [if_pos hbit]
      show alLookup k2 ((s1.pool ++ _).getD (s1.pool.length + 1) _).map = _
      rw [getD_append_right2 _ _ _ _ (by omega)]
      have hidx1 : s1.pool.length + 1 - s1.pool.length = 1 := by omega
      rw [hidx1]
      show alLookup k2 (b.map.filter _) = alLookup k2 b.map
      rw [alLookup_filter_key _ (fun x => decide (¬ 1 <<< b.depth &&& h x = 0))
        (fun p => rfl) b.map k2 hbn]
      have hk2bit : ¬ 1 <<< b.depth &&& h k2 = 0 := hbitagree.1 hbit
      simp [hk2bit]
    · rw [if_neg hbit]
      show alLookup k2 ((s1.pool ++ _).getD s1.pool.length _).map = _
      rw [getD_append_right2 _ _ _ _ (by omega)]
      have hidx0 : s1.pool.length - s1.pool.length = 0 := by omega
      rw [hidx0]
      show alLookup k2 (b.map.filter _) = alLookup k2 b.map
      rw [alLookup_filter_key _ (fun x => decide (1 <<< b.depth &&& h x = 0))
        (fun p => rfl) b.map k2 hbn]
      have hk2bit : 1 <<< b.depth &&& h k2 = 0 := by
        by_contra hcon
        exact hbit (hbitagree.2 hcon)
      simp [hk2bit]
  · rw [if_neg hc]
    show alLookup k2 ((s1.pool ++ _).getD (s1.dir.getD (ehSlot h s1.global k2) 0) _).map = _
    rw [getD_append_left2 _ _ _ _ (hdir _ (getD_mem_of_lt s1.dir _ 0 hslot))]

end SqliteFall2017

namespace SqliteFall2017

theorem list_mem_of_mem_set {α : Type} (l : List α) (i : Nat) (a x : α)
    (hx : x ∈ l.set i a) : x ∈ l ∨ x = a := by
  induction l generalizing i with
  | nil => simp at hx
  | cons hd t ih =>
      cases i with
      | zero =>
          rcases List.mem_cons.1 hx with hh | hh
          · exact Or.inr hh
          · exact Or.inl (List.mem_cons_of_mem _ hh)
      | succ m =>
          rcases List.mem_cons.1 hx with hh | hh
          · exact Or.inl (by simp [hh])
          · rcases ih m hh with hh2 | hh2
            · exact Or.inl (List.mem_cons_of_mem _ hh2)
            · exact Or.inr hh2

/-- The `Insert` split loop preserves the table invariant and the lookup
semantics of every key; when it completes, the inserted key maps to the new
value and every other key's lookup is untouched — across any number of
bucket splits and directory doublings. -/
theorem ehInsertLoop_spec (h : Nat → Nat) (k v : Nat) :
    ∀ fuel s s2, EHInv s → ehInsertLoop h k v fuel s = some s2 →
      EHInv s2 ∧ ehFind h s2 k = some v ∧
      ∀ k2, k2 ≠ k → ehFind h s2 k2 = ehFind h s k2 := by
  intro fuel
  induction fuel with
  | zero =>
      intro s s2 hinv hrun
      exact absurd hrun (by simp [ehInsertLoop])
  | succ n ih =>
      intro s s2 hinv hrun
      have hbidxlt : ehBucketIdx h s k < s.pool.length :=
        ehBucketIdx_lt_poolLength h s k hinv
      have hslot : ehSlot h s.global k < s.dir.length :=
        ehBucketIdx_lt_dirLength h s k hinv.1
      have hbmemdir : s.dir.getD (ehSlot h s.global k) 0 ∈ s.dir :=
        getD_mem_of_lt s.dir _ 0 hslot
      have hble : (s.pool.getD (ehBucketIdx h s k) ⟨0, []⟩).depth ≤ s.global :=
        hinv.2.2.1 _ hbmemdir
      simp only [ehInsertLoop] at hrun
      by_cases hfull :
          (s.pool.getD (ehBucketIdx h s k) ⟨0, []⟩).map.length = s.sizeLimit
      · rw [if_pos hfull] at hrun
        have hinvD : EHInv (ehDouble s (s.pool.getD (ehBucketIdx h s k) ⟨0, []⟩)) :=
          ehDouble_inv s _ hinv
        have hdepthD : (s.pool.getD (ehBucketIdx h s k) ⟨0, []⟩).depth <
            (ehDouble s (s.pool.getD (ehBucketIdx h s k) ⟨0, []⟩)).global :=
          ehDouble_depth_lt s _ hble
        have hbidxD : ehBucketIdx h s k <
            (ehDouble s (s.pool.getD (ehBucketIdx h s k) ⟨0, []⟩)).pool.length := by
          rw [ehDouble_pool]
          exact hbidxlt
        have hbeqD : (ehDouble s (s.pool.getD (ehBucketIdx h s k) ⟨0, []⟩)).pool.getD
            (ehBucketIdx h s k) ⟨0, []⟩ = s.pool.getD (ehBucketIdx h s k) ⟨0, []⟩ := by
          rw [ehDouble_pool]
        have hinvS : EHInv (ehSplitStep h (ehBucketIdx h s k)
            (s.pool.getD (ehBucketIdx h s k) ⟨0, []⟩)
            (ehDouble s (s.pool.getD (ehBucketIdx h s k) ⟨0, []⟩))) :=
          ehSplitStep_inv h _ _ _ hinvD hbidxD hbeqD hdepthD
        obtain ⟨hi2, hfk, hother⟩ := ih _ s2 hinvS hrun
        refine ⟨hi2, hfk, ?_⟩
        intro k2 hk2
        rw [hother k2 hk2,
          ehSplitStep_find h _ _ _ hinvD hbidxD hbeqD hdepthD k2,
          ehDouble_find h s _ k2 hinv.1]
      · rw [if_neg hfull] at hrun
        have hs2 : s2 = { s with pool := (s.pool.set (ehBucketIdx h s k) (EHBucket.mk ((s.pool.getD (ehBucketIdx h s k) ⟨0, []⟩).depth) (alInsert k v (s.pool.getD (ehBucketIdx h s k) ⟨0, []⟩).map))) } := by
          injection hrun with hh
          exact hh.symm
        subst hs2
        obtain ⟨hlen, hdir, hdep, hnd⟩ := hinv
        have hbpool : s.pool.getD (ehBucketIdx h s k) ⟨0, []⟩ ∈ s.pool :=
          getD_mem_of_lt s.pool _ _ hbidxlt
        refine ⟨⟨hlen, ?_, ?_, ?_⟩, ?_, ?_⟩
        · intro x hx
          rw [List.length_set]
          exact hdir x hx
        · intro x hx
          by_cases hxb : x = ehBucketIdx h s k
          · subst hxb
            rw [getD_set_self2 _ _ _ _ hbidxlt]
            exact hdep _ hx
          · rw [getD_set_ne2 _ _ _ _ _ (fun hh => hxb hh.symm)]
            exact hdep x hx
        · intro b2 hb2
          rcases list_mem_of_mem_set _ _ _ _ hb2 with hh | hh
          · exact hnd b2 hh
          · rw [hh]
            exact alInsert_keys_nodup k v _ (hnd _ hbpool)
        · show alLookup k ((s.pool.set (ehBucketIdx h s k) _).getD
            (ehBucketIdx h s k) ⟨0, []⟩).map = some v
          rw [getD_set_self2 _ _ _ _ hbidxlt]
          exact alLookup_alInsert_self k v _
        · intro k2 hk2
          show alLookup k2 ((s.pool.set (ehBucketIdx h s k) _).getD
              (ehBucketIdx h s k2) ⟨0, []⟩).map =
            alLookup k2 (s.pool.getD (ehBucketIdx h s k2) ⟨0, []⟩).map
          by_cases hsame : ehBucketIdx h s k2 = ehBucketIdx h s k
          · rw [hsame, getD_set_self2 _ _ _ _ hbidxlt]
            exact alLookup_alInsert_ne k k2 v _ hk2
          · rw [getD_set_ne2 _ _ _ _ _ (fun hh => hsame hh.symm)]

/-- C8: when `Insert(k, v)` completes on a well-formed table, `Find(k)`
returns the just-inserted value `v` (overwriting any previous binding), and
`Find(k2)` for every other key is unchanged — including when the insert
triggers bucket splits and directory doublings. -/
theorem c8_insert_find_spec (h : Nat → Nat) (k v fuel : Nat) (s s2 : EHState)
    (hinv : EHInv s) (hrun : ehInsertLoop h k v fuel s = some s2) :
    ehFind h s2 k = some v ∧ ∀ k2, k2 ≠ k → ehFind h s2 k2 = ehFind h s k2 := by
  obtain ⟨_, hfk, hother⟩ := ehInsertLoop_spec h k v fuel s s2 hinv hrun
  exact ⟨hfk, hother⟩

theorem c8_witness :
    ehFind (fun x => x) c8After 1 = some 11 ∧
    ehFind (fun x => x) c8After 2 = ehFind (fun x => x) c8Before 2 :=
  ⟨(c8_insert_find_spec (fun x => x) 1 11 5 c8Before c8After (by decide) (by decide)).1,
   (c8_insert_find_spec (fun x => x) 1 11 5 c8Before c8After (by decide) (by decide)).2
     2 (by decide)⟩

/-- C9: `Remove(k)` returns `true` exactly when `k` is present; afterwards
`Find(k)` fails, every other key's lookup is unchanged, and nothing is
restructured: directory, global depth and the bucket pool's size are
untouched (only the one bucket's entry list loses `k`). -/
theorem c9_remove_spec (h : Nat → Nat) (s : EHState) (k : Nat) (hinv : EHInv s) :
    ((ehRemove h s k).1 = true ↔ (ehFind h s k).isSome = true) ∧
    ehFind h (ehRemove h s k).2 k = none ∧
    (∀ k2, k2 ≠ k → ehFind h (ehRemove h s k).2 k2 = ehFind h s k2) ∧
    (ehRemove h s k).2.dir = s.dir ∧
    (ehRemove h s k).2.global = s.global ∧
    (ehRemove h s k).2.pool.length = s.pool.length := by
  have hbidxlt : ehBucketIdx h s k < s.pool.length :=
    ehBucketIdx_lt_poolLength h s k hinv
  have hbpool : s.pool.getD (ehBucketIdx h s k) ⟨0, []⟩ ∈ s.pool :=
    getD_mem_of_lt s.pool _ _ hbidxlt
  have hbn : ((s.pool.getD (ehBucketIdx h s k) ⟨0, []⟩).map.map Prod.fst).Nodup :=
    hinv.2.2.2 _ hbpool
  have hfind : ehFind h s k =
      alLookup k (s.pool.getD (ehBucketIdx h s k) ⟨0, []⟩).map := rfl
  cases hl : alLookup k (s.pool.getD (ehBucketIdx h s k) ⟨0, []⟩).map with
  | none =>
      have hre : ehRemove h s k = (false, s) := by
        simp only [ehRemove]
        rw [hl]
      rw [hre]
      refine ⟨?_, ?_, fun k2 _ => rfl, rfl, rfl, rfl⟩
      · show false = true ↔ (ehFind h s k).isSome = true
        rw [hfind, hl]
        simp
      · show ehFind h s k = none
        rw [hfind, hl]
  | some w =>
      have hre : ehRemove h s k = (true, { s with pool := (s.pool.set (ehBucketIdx h s k) (EHBucket.mk ((s.pool.getD (ehBucketIdx h s k) ⟨0, []⟩).depth) (alErase k (s.pool.getD (ehBucketIdx h s k) ⟨0, []⟩).map))) }) := by
        simp only [ehRemove]
        rw [hl]
      rw [hre]
      refine ⟨?_, ?_, ?_, rfl, rfl, ?_⟩
      · rw [hfind, hl]
        simp
      · show alLookup k ((s.pool.set (ehBucketIdx h s k) _).getD
            (ehBucketIdx h s k) ⟨0, []⟩).map = none
        rw [getD_set_self2 _ _ _ _ hbidxlt]
        exact alLookup_alErase_self k _ hbn
      · intro k2 hk2
        show alLookup k2 ((s.pool.set (ehBucketIdx h s k) _).getD
            (ehBucketIdx h s k2) ⟨0, []⟩).map =
          alLookup k2 (s.pool.getD (ehBucketIdx h s k2) ⟨0, []⟩).map
        by_cases hsame : ehBucketIdx h s k2 = ehBucketIdx h s k
        · rw [hsame, getD_set_self2 _ _ _ _ hbidxlt]
          exact alLookup_alErase_ne k k2 _ hk2
        · rw [getD_set_ne2 _ _ _ _ _ (fun hh => hsame hh.symm)]
      · show (s.pool.set (ehBucketIdx h s k) _).length = s.pool.length
        rw [List.length_set]

theorem c9_witness :
    ((ehRemove (fun x => x) c9Table 3).1 = true ↔
      (ehFind (fun x => x) c9Table 3).isSome = true) ∧
    ehFind (fun x => x) (ehRemove (fun x => x) c9Table 3).2 3 = none ∧
    ehFind (fun x => x) (ehRemove (fun x => x) c9Table 3).2 5 =
      ehFind (fun x => x) c9Table 5 :=
  ⟨(c9_remove_spec (fun x => x) c9Table 3 (by decide)).1,
   (c9_remove_spec (fun x => x) c9Table 3 (by decide)).2.1,
   (c9_remove_spec (fun x => x) c9Table 3 (by decide)).2.2.1 5 (by decide)⟩

end SqliteFall2017
